import Mathlib

/-!
Verification of the `rustik` modal terminal editor (src/buffer.rs, src/editor.rs).

Shallow embedding conventions:
* `usize` is modelled as `Nat`.  Subtractions that the source guards (or that use
  `saturating_sub`) are modelled with truncated `Nat` subtraction, which agrees with
  the guarded/saturating Rust semantics.  Subtractions and indexing operations that
  can fail at runtime (`usize` underflow, `String::insert`/`String::remove` index
  assertions, `Vec::insert` out-of-range, slice-range panics) are modelled
  explicitly: the embedded operation returns `Option`, with `none` meaning the Rust
  code panics there.
* A Rust `String` holding one buffer line is modelled as `List Char` (the source
  treats text as code-unit sequences; the spec keeps this simplification).
* `Editor::execute` takes a fuel parameter solely to justify the recursion in the
  `Undo`/`UndoMultiple` arms; every arm's behaviour is fuel-independent as long as
  fuel covers the recursion depth actually used.
* The drawing helpers (`draw_line`, `draw_viewport`, `draw_statusline`) mutate only
  the `RenderBuffer` argument, never the editor/buffer state; the editor-state
  claims below do not mention the render grid, so `execute` is embedded as the pure
  state transition and rendering is modelled separately (`RenderBuffer.diff`).
-/

namespace Rustik

/-- `Mode` from src/editor.rs. -/
inductive Mode where
  | normal
  | insert
deriving DecidableEq, Repr

/-- One buffer line: a Rust `String` viewed as its character sequence. -/
abbrev Line := List Char

/-- `Buffer` from src/buffer.rs: optional file name plus the ordered lines. -/
structure Buffer where
  file : Option String
  lines : List Line
deriving DecidableEq, Repr

mutual
/-- `Action` from src/editor.rs (all variants). -/
inductive Action where
  | undo
  | quit
  | moveUp
  | moveDown
  | moveLeft
  | moveRight
  | pageUp
  | pageDown
  | moveToLineStart
  | moveToLineEnd
  | insertCharAtCursorPos (c : Char)
  | deleteCharAtCursorPos
  | deleteCurrentLine
  | deleteLineAt (y : Nat)
  | newLine
  | enterMode (m : Mode)
  | setWaitingKeyAction (ka : KeyAction)
  | insertLineAt (y : Nat) (contents : Option Line)
  | moveLineToViewportCenter
  | insertLineAtCursor
  | insertLineBelowCursor
  | moveToBottom
  | moveToTop
  | removeCharAt (cx : Nat) (line : Nat)
  | undoMultiple (actions : List Action)
  | deletePreviousChar

/-- Modelled from the spec: `KeyAction` lives in src/config.rs, which is not among
the sources; §4.2 of the spec describes it as a configured Action, a bundle of
Actions, or a nested table keyed by a canonical key string (the `HashMap` is
modelled as an association list looked up by key). -/
inductive KeyAction where
  | single (a : Action)
  | multiple (actions : List Action)
  | nested (mappings : List (String × KeyAction))
end

/-- The `Editor` fields that the verified claims are about (src/editor.rs,
`struct Editor`): the line buffer, terminal size, scroll offset, cursor, mode,
pending multi-key state, and both undo lists.  The `config`/`theme`/`highlighter`
collaborators and the `stdout` handle carry no editor-engine state. -/
structure EditorState where
  buffer : Buffer
  size : Nat × Nat
  vtop : Nat
  vleft : Nat
  cx : Nat
  cy : Nat
  vx : Nat
  mode : Mode
  waiting_key_action : Option KeyAction
  undo_actions : List Action
  insert_undo_actions : List Action

/-- Checked `usize` subtraction: `none` models the Rust debug-profile underflow
panic. -/
def checkedSub (a b : Nat) : Option Nat :=
  if b ≤ a then some (a - b) else none

namespace Buffer

/-- `Buffer::len`. -/
def len (b : Buffer) : Nat := b.lines.length

/-- `Buffer::get`: `Some` clone of the line when `lines.len() > line`. -/
def get (b : Buffer) (line : Nat) : Option Line := b.lines.get? line

/-- `Buffer::insert`: no-op when the line index is out of range; within an
existing line, `String::insert` panics (`none`) when the column exceeds the line
length. -/
def insert (b : Buffer) (x y : Nat) (c : Char) : Option Buffer :=
  match b.lines.get? y with
  | none => some b
  | some line =>
    if x ≤ line.length then some { b with lines := b.lines.set y (line.insertIdx x c) }
    else none

/-- `Buffer::insert_line`: `Vec::insert`, which panics (`none`) when the index
exceeds the current length. -/
def insert_line (b : Buffer) (line : Nat) (content : Line) : Option Buffer :=
  if line ≤ b.lines.length then some { b with lines := b.lines.insertIdx line content }
  else none

/-- `Buffer::remove`: no-op when the line index is out of range; within an
existing line, `String::remove` panics (`none`) when the column is not below the
line length. -/
def remove (b : Buffer) (x y : Nat) : Option Buffer :=
  match b.lines.get? y with
  | none => some b
  | some line =>
    if x < line.length then some { b with lines := b.lines.set y (line.eraseIdx x) }
    else none

/-- `Buffer::remove_line`: guarded, hence a total no-op when out of range. -/
def remove_line (b : Buffer) (line : Nat) : Buffer :=
  if line < b.len then { b with lines := b.lines.eraseIdx line }
  else b

/-- `Buffer::viewport`: `lines[vtop..min(vtop+vheight, len)].join("\n")`.  The
slice panics (`none`) when `vtop` exceeds the end of the range. -/
def viewport (b : Buffer) (vtop vheight : Nat) : Option Line :=
  let height := min (vtop + vheight) b.lines.length
  if vtop ≤ height then
    some (List.intercalate [Char.ofNat 10] ((b.lines.drop vtop).take (height - vtop)))
  else none

end Buffer

namespace EditorState

/-- `Editor::vheight`: `size.1 - 2` (height is the second component). -/
def vheight (s : EditorState) : Nat := s.size.2 - 2

/-- `Editor::buffer_line`: `vtop + cy`. -/
def buffer_line (s : EditorState) : Nat := s.vtop + s.cy

/-- `Editor::viewport_line`. -/
def viewport_line (s : EditorState) (n : Nat) : Option Line := s.buffer.get (s.vtop + n)

/-- `Editor::line_length`: length of the viewport line at `cy`, else 0. -/
def line_length (s : EditorState) : Nat :=
  match s.viewport_line s.cy with
  | some line => line.length
  | none => 0

/-- `Editor::is_insert`. -/
def is_insert (s : EditorState) : Bool :=
  match s.mode with
  | Mode.insert => true
  | Mode.normal => false

/-- `Editor::current_line_contents`. -/
def current_line_contents (s : EditorState) : Option Line := s.buffer.get s.buffer_line

end EditorState

/-- Sequential execution of a list of actions, short-circuiting on a panic.
Used both for the `UndoMultiple` loop and for the run-loop sequences in the
theorems below. -/
def execList (f : Action → EditorState → Option EditorState) :
    List Action → EditorState → Option EditorState
  | [], s => some s
  | a :: rest, s =>
    match f a s with
    | none => none
    | some t => execList f rest t

/-- One unfolding of `Editor::execute` (src/editor.rs:667-844), parametrised by
the recursive call used in the `Undo`/`UndoMultiple` arms.  Each arm mirrors the
source match arm; the `buffer: &mut RenderBuffer` drawing calls touch only the
render grid and are omitted (see the header comment).  `execute` returns
`Ok(bool)` in the source where the boolean is `true` only for `Quit`; no claim
exercises the quit flag, so the embedding returns the state. -/
def execBody (recur : Action → EditorState → Option EditorState)
    (a : Action) (s : EditorState) : Option EditorState :=
  match a with
  | Action.quit => some s
  | Action.moveUp =>
    if s.cy = 0 then
      if 0 < s.vtop then some { s with vtop := s.vtop - 1 } else some s
    else some { s with cy := s.cy - 1 }
  | Action.moveDown =>
    let cy := s.cy + 1
    if s.vheight ≤ cy then some { s with cy := cy - 1, vtop := s.vtop + 1 }
    else some { s with cy := cy }
  | Action.moveLeft =>
    let cx := s.cx - 1
    some { s with cx := if cx < s.vleft then s.vleft else cx }
  | Action.moveRight => some { s with cx := s.cx + 1 }
  | Action.moveToLineStart => some { s with cx := 0 }
  | Action.moveToLineEnd => some { s with cx := s.line_length - 1 }
  | Action.pageUp =>
    if 0 < s.vtop then some { s with vtop := s.vtop - s.vheight } else some s
  | Action.pageDown =>
    if s.vtop + s.vheight < s.buffer.len then some { s with vtop := s.vtop + s.vheight }
    else some s
  | Action.enterMode m =>
    let s1 :=
      if s.is_insert = false ∧ m = Mode.insert then { s with insert_undo_actions := [] }
      else s
    let s2 :=
      if s1.is_insert = true ∧ m = Mode.normal ∧ s1.insert_undo_actions.isEmpty = false then
        { s1 with
          undo_actions := s1.undo_actions ++ [Action.undoMultiple s1.insert_undo_actions],
          insert_undo_actions := [] }
      else s1
    some { s2 with mode := m }
  | Action.insertCharAtCursorPos c => do
    let s1 :=
      { s with
        insert_undo_actions :=
          s.insert_undo_actions ++ [Action.removeCharAt s.cx s.buffer_line] }
    let b ← s1.buffer.insert s1.cx s1.buffer_line c
    some { s1 with buffer := b, cx := s1.cx + 1 }
  | Action.removeCharAt cx line => do
    let b ← s.buffer.remove cx line
    some { s with buffer := b }
  | Action.deleteCharAtCursorPos => do
    let b ← s.buffer.remove s.cx s.buffer_line
    some { s with buffer := b }
  | Action.newLine => do
    let s1 := { s with cx := 0, cy := s.cy + 1 }
    let b ← s1.buffer.insert_line s1.buffer_line []
    some { s1 with buffer := b }
  | Action.setWaitingKeyAction ka => some { s with waiting_key_action := some ka }
  | Action.deleteCurrentLine =>
    let line := s.buffer_line
    let contents := s.current_line_contents
    some
      { s with
        buffer := s.buffer.remove_line line,
        undo_actions := s.undo_actions ++ [Action.insertLineAt line contents] }
  | Action.undo =>
    match s.undo_actions.getLast? with
    | some a => recur a { s with undo_actions := s.undo_actions.dropLast }
    | none => some s
  | Action.insertLineAt y contents =>
    match contents with
    | some cts => do
      let b ← s.buffer.insert_line y cts
      some { s with buffer := b }
    | none => some s
  | Action.moveLineToViewportCenter =>
    let viewportCenter := s.vheight / 2
    let distanceToCenter : Int := (s.cy : Int) - (viewportCenter : Int)
    if 0 < distanceToCenter then
      let d := distanceToCenter.natAbs
      if d < s.vtop then some { s with vtop := s.vtop + d, cy := viewportCenter }
      else some s
    else if distanceToCenter < 0 then
      let d := distanceToCenter.natAbs
      let distanceToGo := s.vtop + d
      let newVtop := s.vtop - d
      if distanceToGo < s.buffer.len ∧ newVtop ≠ s.vtop then
        some { s with vtop := newVtop, cy := viewportCenter }
      else some s
    else some s
  | Action.insertLineAtCursor => do
    let s1 :=
      { s with undo_actions := s.undo_actions ++ [Action.deleteLineAt s.buffer_line] }
    let b ← s1.buffer.insert_line s1.buffer_line []
    some { s1 with buffer := b, cx := 0 }
  | Action.insertLineBelowCursor => do
    let s1 :=
      { s with undo_actions := s.undo_actions ++ [Action.deleteLineAt (s.buffer_line + 1)] }
    let b ← s1.buffer.insert_line (s1.buffer_line + 1) []
    some { s1 with buffer := b, cy := s1.cy + 1, cx := 0 }
  | Action.moveToTop => some { s with vtop := 0, cy := 0 }
  | Action.moveToBottom =>
    if s.vheight < s.buffer.len then do
      let cy ← checkedSub s.vheight 1
      some { s with vtop := s.buffer.len - s.vheight, cy := cy }
    else do
      let cy ← checkedSub s.buffer.len 1
      some { s with cy := cy }
  | Action.undoMultiple actions => execList recur actions.reverse s
  | Action.deleteLineAt y => some { s with buffer := s.buffer.remove_line y }
  | Action.deletePreviousChar =>
    if 0 < s.cx then do
      let s1 := { s with cx := s.cx - 1 }
      let b ← s1.buffer.remove s1.cx s1.buffer_line
      some { s1 with buffer := b }
    else some s

/-- `Editor::execute` with fuel for the `Undo`/`UndoMultiple` recursion. -/
def execute : Nat → Action → EditorState → Option EditorState
  | 0, _, _ => none
  | fuel + 1, a, s => execBody (execute fuel) a s

/-- `Editor::with_size`: fresh editor state (cursor and scroll at the origin,
Normal mode, empty undo lists). -/
def initialState (b : Buffer) (size : Nat × Nat) : EditorState :=
  { buffer := b
    size := size
    vtop := 0
    vleft := 0
    cx := 0
    cy := 0
    vx := b.len.repr.length + 2
    mode := Mode.normal
    waiting_key_action := none
    undo_actions := []
    insert_undo_actions := [] }

/-- Modelled from the spec: the `crossterm` `Color` values stored in a `Style`
are external to the repository; only their (decidable) equality matters to the
diff, and the source's tests use RGB colours. -/
inductive Color where
  | rgb (r g b : Nat)
  | ansi (n : Nat)
deriving DecidableEq, Repr

/-- Modelled from the spec: `Style` lives in src/theme.rs, absent from the
sources; §6 of the spec gives its shape `Style{fg, bg, bold, italic}` with
optional colours. -/
structure Style where
  fg : Option Color
  bg : Option Color
  bold : Bool
  italic : Bool
deriving DecidableEq, Repr

/-- `Cell` from src/editor.rs: character plus style, with derived equality. -/
structure Cell where
  c : Char
  style : Style
deriving DecidableEq, Repr

/-- `RenderBuffer` from src/editor.rs: row-major cells of a width×height grid. -/
structure RenderBuffer where
  cells : List Cell
  width : Nat
  height : Nat

/-- `Change` from src/editor.rs (the borrowed cell is embedded by value). -/
structure Change where
  x : Nat
  y : Nat
  cell : Cell
deriving DecidableEq, Repr

/-- The enumerate-and-compare loop of `RenderBuffer::diff`: walk `self`'s cells
with their running position, compare against `other.cells[pos]`, and emit a
`Change` built from `pos % width`, `pos / width` and `self`'s cell when they
differ. -/
def diffGo (w : Nat) (other : List Cell) : Nat → List Cell → List Change
  | _, [] => []
  | pos, c :: rest =>
    if other.get? pos = some c then diffGo w other (pos + 1) rest
    else { x := pos % w, y := pos / w, cell := c } :: diffGo w other (pos + 1) rest

/-- `RenderBuffer::diff` (src/editor.rs:155-167).  Indexing `other.cells[pos]`
panics when `other` has fewer cells than `self`; the equal-dimension uses in the
run loop never hit that case. -/
def RenderBuffer.diff (a other : RenderBuffer) : Option (List Change) :=
  if other.cells.length < a.cells.length then none
  else some (diffGo a.width other.cells 0 a.cells)

/-- Row-major position encoded in a `Change` (its coordinates came from
`pos % width` and `pos / width`). -/
def Change.pos (w : Nat) (ch : Change) : Nat := ch.y * w + ch.x

/-- Modelled from the spec: key lookup in one mapping table.  The tables come
from src/config.rs (not among the sources); §4.2: a table keyed by a canonical
key string, queried with `HashMap::get` on the key produced from the event. -/
def lookupKey (table : List (String × KeyAction)) (k : String) : Option KeyAction :=
  table.lookup k

/-- `Editor::handle_waiting_command` (src/editor.rs:619-625): resolve the event
against the stored nested table; panics (`none`) if the stored pending action is
not a nested table. -/
def handleWaitingCommand (ka : KeyAction) (k : String) : Option (Option KeyAction) :=
  match ka with
  | KeyAction.nested mappings => some (lookupKey mappings k)
  | _ => none

/-- The Normal-mode slice of the key router: the top-level table (from the
configuration) plus the `waiting_key_action` pending state.  Insert mode owns
its own table and a raw-character fallback (src/editor.rs:601-613), which the
nested-key claim does not exercise. -/
structure Router where
  normalTable : List (String × KeyAction)
  waiting_key_action : Option KeyAction

/-- `Editor::handle_event` (src/editor.rs:585-599) for a key event in Normal
mode: a pending nested table, if any, is taken (cleared) and the key resolves
against it; otherwise the key resolves against the top-level table. -/
def handleEvent (r : Router) (k : String) : Option (Router × Option KeyAction) :=
  match r.waiting_key_action with
  | some ka =>
    (handleWaitingCommand ka k).map (fun res => ({ r with waiting_key_action := none }, res))
  | none => some (r, lookupKey r.normalTable k)

/-- One key event through the run loop's routing match (src/editor.rs:551-568):
a resolved `Nested` table is stored as the pending state and nothing executes; a
resolved `Single`/`Multiple` is handed to the executor (returned here); an
unmapped key does nothing. -/
def dispatchKey (r : Router) (k : String) : Option (Router × Option KeyAction) :=
  (handleEvent r k).map (fun p =>
    match p.2 with
    | some (KeyAction.nested mappings) =>
      ({ p.1 with waiting_key_action := some (KeyAction.nested mappings) }, none)
    | other => (p.1, other))

/-- The viewport text in the spec's words (§4.1): the lines with indices in
`[top, min(top+height, length))`, joined with newline separators. -/
def specViewportText (b : Buffer) (top height : Nat) : Line :=
  List.intercalate [Char.ofNat 10] ((b.lines.take (min (top + height) b.len)).drop top)

theorem set_get?_self {α : Type} : ∀ {l : List α} {n : Nat} {x : α},
    l.get? n = some x → l.set n x = l
  | [], n, x, h => by simp at h
  | a :: l, 0, x, h => by simp_all
  | a :: l, n + 1, x, h => by
    simp only [List.get?_cons_succ] at h
    simp [List.set, set_get?_self h]

theorem insertIdx_eraseIdx_self {α : Type} : ∀ {l : List α} {n : Nat} {x : α},
    l.get? n = some x → (l.eraseIdx n).insertIdx n x = l
  | [], n, x, h => by simp at h
  | a :: l, 0, x, h => by simp_all
  | a :: l, n + 1, x, h => by
    simp only [List.get?_cons_succ] at h
    simp [List.eraseIdx, List.insertIdx_succ_cons, insertIdx_eraseIdx_self h]

/-! ## C2 — out-of-range buffer operations -/

/-- C2 counterexample: the claim says an out-of-range column within an existing
line makes `insert`/`remove` a no-op that never panics, but `String::insert` at
column 5 of the one-character line `"a"` (and `String::remove` at column 1)
asserts on the index and panics, modelled as `none` rather than `some` of the
unchanged buffer. -/
theorem buffer_col_out_of_range_panics :
    Buffer.insert ⟨none, [['a']]⟩ 5 0 'z' = none ∧
    Buffer.remove ⟨none, [['a']]⟩ 1 0 = none := by
  exact ⟨rfl, rfl⟩

/-- C2 amended: `insert` and `remove` with an out-of-range line index are no-ops
that leave the buffer unchanged; within an existing line, a column beyond the
line length (for `insert`, strictly beyond; for `remove`, at or beyond) panics
instead of being a no-op. -/
theorem buffer_ops_out_of_range (b : Buffer) (x y : Nat) (c : Char) :
    (b.len ≤ y → b.insert x y c = some b ∧ b.remove x y = some b) ∧
    (∀ line, b.lines.get? y = some line →
      (line.length < x → b.insert x y c = none) ∧
      (line.length ≤ x → b.remove x y = none)) := by
  constructor
  · intro hy
    have hnone : b.lines.get? y = none := List.get?_eq_none.mpr hy
    constructor
    · simp only [Buffer.insert, hnone]
    · simp only [Buffer.remove, hnone]
  · intro line hline
    constructor
    · intro hx
      simp only [Buffer.insert, hline]
      rw [if_neg (not_le.mpr hx)]
    · intro hx
      simp only [Buffer.remove, hline]
      rw [if_neg (not_lt.mpr hx)]

/-- Witness for `buffer_ops_out_of_range` at line index 3 (out of range) and at
column 2 of the in-range line `"a"`. -/
theorem buffer_ops_out_of_range_witness :
    (Buffer.insert ⟨none, [['a']]⟩ 0 3 'z' = some ⟨none, [['a']]⟩ ∧
      Buffer.remove ⟨none, [['a']]⟩ 0 3 = some ⟨none, [['a']]⟩) ∧
    (Buffer.insert ⟨none, [['a']]⟩ 2 0 'z' = none ∧
      Buffer.remove ⟨none, [['a']]⟩ 2 0 = none) := by
  refine ⟨(buffer_ops_out_of_range ⟨none, [['a']]⟩ 0 3 'z').1 (by decide), ?_, ?_⟩
  · exact ((buffer_ops_out_of_range ⟨none, [['a']]⟩ 2 0 'z').2 ['a'] rfl).1 (by decide)
  · exact ((buffer_ops_out_of_range ⟨none, [['a']]⟩ 2 0 'z').2 ['a'] rfl).2 (by decide)

/-! ## C9 — viewport slicing -/

/-- C9 counterexample: the claim quantifies over every `top`, but for `top = 3`
on a two-line buffer the claimed result is the empty join while the slice
`lines[3..2]` panics. -/
theorem viewport_top_past_end_panics :
    Buffer.viewport ⟨none, [['a'], ['b']]⟩ 3 1 = none := by
  exact rfl

/-- C9 amended: for every `top ≤ length`, `viewport(top, height)` returns the
lines with indices in `[top, min(top+height, length))` joined with newline
separators (for `top > length` the slice panics); in particular on
`["a","b"]`, `viewport(0,5) = "a\nb"`, and with a height smaller than the
content only the requested number of lines is returned. -/
theorem viewport_matches_spec :
    (∀ (b : Buffer) (top height : Nat), top ≤ b.len →
      b.viewport top height = some (specViewportText b top height)) ∧
    Buffer.viewport ⟨none, [['a'], ['b']]⟩ 0 5 = some ("a\nb".toList) ∧
    Buffer.viewport ⟨none, [['a'], ['b'], ['c']]⟩ 0 2 = some ("a\nb".toList) := by
  refine ⟨?_, rfl, rfl⟩
  intro b top height htop
  have hmin : top ≤ min (top + height) b.lines.length := by
    simp only [Buffer.len] at htop
    omega
  simp only [Buffer.viewport, specViewportText, Buffer.len, hmin, if_pos]
  rw [List.drop_take]

/-- Witness for `viewport_matches_spec` on `["a","b"]` with `top = 1`. -/
theorem viewport_matches_spec_witness :
    Buffer.viewport ⟨none, [['a'], ['b']]⟩ 1 5 =
      some (specViewportText ⟨none, [['a'], ['b']]⟩ 1 5) := by
  exact viewport_matches_spec.1 ⟨none, [['a'], ['b']]⟩ 1 5 (by decide)

/-! ## C10 — Undo on an empty undo log -/

/-- C10: with an empty global `UndoLog`, the `Undo` arm pops nothing and the
whole action is a no-op: the identical editor state (buffer, cursor, mode and
both undo lists) is returned. -/
theorem undo_empty_log_noop (fuel : Nat) (s : EditorState)
    (h : s.undo_actions = []) : execute (fuel + 1) Action.undo s = some s := by
  simp [execute, execBody, h]

/-- Witness for `undo_empty_log_noop` on a fresh editor. -/
theorem undo_empty_log_noop_witness :
    execute 1 Action.undo (initialState ⟨none, [['a']]⟩ (80, 6)) =
      some (initialState ⟨none, [['a']]⟩ (80, 6)) := by
  exact undo_empty_log_noop 0 _ rfl

/-! ## C8 — forward delete: effect and (absent) inverse -/

/-- C8 counterexample: the claim's only proviso is a non-empty current line, but
with cursor column 3 on the one-character line `"a"` the arm panics
(`String::remove` asserts `idx < len`) instead of removing a character. -/
theorem deleteChar_past_line_end_panics :
    execute 1 Action.deleteCharAtCursorPos
      { initialState ⟨none, [['a']]⟩ (80, 6) with cx := 3 } = none := by
  exact rfl

/-- C8 amended: when the cursor column lies on a character of the current line
(`cx < line length`, which implies the line is non-empty), the arm removes that
character, and it records no inverse: both the global `UndoLog` and the
insert-session group are left unchanged (as are cursor, scroll, and mode). -/
theorem deleteChar_removes_without_inverse (f : Nat) (s : EditorState) (line : Line)
    (hline : s.buffer.lines.get? s.buffer_line = some line)
    (hx : s.cx < line.length) :
    ∃ t, execute (f + 1) Action.deleteCharAtCursorPos s = some t ∧
      t.buffer.lines = s.buffer.lines.set s.buffer_line (line.eraseIdx s.cx) ∧
      t.undo_actions = s.undo_actions ∧
      t.insert_undo_actions = s.insert_undo_actions ∧
      t.cx = s.cx ∧ t.cy = s.cy ∧ t.vtop = s.vtop ∧ t.mode = s.mode := by
  have hb : s.buffer.remove s.cx s.buffer_line =
      some { s.buffer with lines := s.buffer.lines.set s.buffer_line (line.eraseIdx s.cx) } := by
    simp only [Buffer.remove, hline]
    rw [if_pos hx]
  have hexec : execute (f + 1) Action.deleteCharAtCursorPos s =
      some { s with buffer :=
        { s.buffer with lines := s.buffer.lines.set s.buffer_line (line.eraseIdx s.cx) } } := by
    simp [execute, execBody, hb]
  exact ⟨_, hexec, rfl, rfl, rfl, rfl, rfl, rfl, rfl⟩

/-- Witness for `deleteChar_removes_without_inverse` at cursor column 0 of
`"ab"`. -/
theorem deleteChar_removes_without_inverse_witness :
    ∃ t, execute 1 Action.deleteCharAtCursorPos (initialState ⟨none, [['a', 'b']]⟩ (80, 6)) = some t ∧
      t.buffer.lines = [['a', 'b']].set 0 (['a', 'b'].eraseIdx 0) ∧
      t.undo_actions = [] ∧
      t.insert_undo_actions = [] ∧
      t.cx = 0 ∧ t.cy = 0 ∧ t.vtop = 0 ∧ t.mode = Mode.normal := by
  exact deleteChar_removes_without_inverse 0 (initialState ⟨none, [['a', 'b']]⟩ (80, 6))
    ['a', 'b'] rfl (by decide)

/-! ## C5 — where inverse actions are pushed -/

/-- C5 counterexample: in Normal mode the claim routes the recorded inverse to
the global `UndoLog`, but executing `InsertCharAtCursorPos('x')` on a fresh
(Normal-mode) editor leaves the global `UndoLog` empty and instead appends the
inverse to the insert-session group. -/
theorem normal_mode_insert_pushes_to_session_group :
    (initialState ⟨none, [['a']]⟩ (80, 6)).mode = Mode.normal ∧
    ∃ t, execute 1 (Action.insertCharAtCursorPos 'x')
        (initialState ⟨none, [['a']]⟩ (80, 6)) = some t ∧
      t.undo_actions = [] ∧
      t.insert_undo_actions = [Action.removeCharAt 0 0] := by
  exact ⟨rfl, _, rfl, rfl, rfl⟩

/-- C5 amended: each mutating arm pushes its inverse to a fixed list,
independent of the current mode: `InsertCharAtCursorPos` always appends
`RemoveCharAt(cx, buffer_line)` to the insert-session group (and leaves the
global `UndoLog` alone), while `DeleteCurrentLine` always appends
`InsertLineAt(buffer_line, contents)` to the global `UndoLog` (and leaves the
session group alone). -/
theorem inverse_push_destinations (f : Nat) (s : EditorState) (c : Char) (line : Line)
    (hline : s.buffer.lines.get? s.buffer_line = some line)
    (hcx : s.cx ≤ line.length) :
    ∃ t u,
      execute (f + 1) (Action.insertCharAtCursorPos c) s = some t ∧
      t.insert_undo_actions =
        s.insert_undo_actions ++ [Action.removeCharAt s.cx s.buffer_line] ∧
      t.undo_actions = s.undo_actions ∧
      execute (f + 1) Action.deleteCurrentLine s = some u ∧
      u.undo_actions =
        s.undo_actions ++ [Action.insertLineAt s.buffer_line s.current_line_contents] ∧
      u.insert_undo_actions = s.insert_undo_actions := by
  have hb : s.buffer.insert s.cx s.buffer_line c =
      some { s.buffer with lines := s.buffer.lines.set s.buffer_line (line.insertIdx s.cx c) } := by
    simp only [Buffer.insert, hline]
    rw [if_pos hcx]
  have hexec1 : execute (f + 1) (Action.insertCharAtCursorPos c) s =
      some { s with
        insert_undo_actions :=
          s.insert_undo_actions ++ [Action.removeCharAt s.cx s.buffer_line],
        buffer := { s.buffer with lines := s.buffer.lines.set s.buffer_line (line.insertIdx s.cx c) },
        cx := s.cx + 1 } := by
    simp only [EditorState.buffer_line] at hb
    simp [execute, execBody, EditorState.buffer_line, hb]
  have hexec2 : execute (f + 1) Action.deleteCurrentLine s =
      some { s with
        buffer := s.buffer.remove_line s.buffer_line,
        undo_actions :=
          s.undo_actions ++ [Action.insertLineAt s.buffer_line s.current_line_contents] } := by
    simp [execute, execBody]
  exact ⟨_, _, hexec1, rfl, rfl, hexec2, rfl, rfl⟩

/-- Witness for `inverse_push_destinations` on a fresh editor over `["a"]`. -/
theorem inverse_push_destinations_witness :
    ∃ t u,
      execute 1 (Action.insertCharAtCursorPos 'z')
        (initialState ⟨none, [['a']]⟩ (80, 6)) = some t ∧
      t.insert_undo_actions = [] ++ [Action.removeCharAt 0 0] ∧
      t.undo_actions = [] ∧
      execute 1 Action.deleteCurrentLine (initialState ⟨none, [['a']]⟩ (80, 6)) = some u ∧
      u.undo_actions =
        [] ++ [Action.insertLineAt 0 (initialState ⟨none, [['a']]⟩ (80, 6)).current_line_contents] ∧
      u.insert_undo_actions = [] := by
  exact inverse_push_destinations 0 (initialState ⟨none, [['a']]⟩ (80, 6)) 'z' ['a']
    rfl (by decide)

/-! ## C7 — nested (two-key) routing -/

/-- C7: with a top-level table mapping `k1` to a nested table `m`, `k1` stores
`m` as the pending state and fires nothing; the next key resolves against `m`
(not the top level), firing the mapped action and clearing the pending state;
a key with no entry in `m` fires nothing and clears the pending state; with no
pending state a key resolves against the top-level table (normal routing
resumes); and the second key on its own (no pending state, unmapped at top
level) fires nothing, so the action fires only when both keys arrive in
order. -/
theorem nested_key_routing (T m : List (String × KeyAction))
    (k1 k2 kBad : String) (a : Action)
    (h1 : lookupKey T k1 = some (KeyAction.nested m))
    (h2 : lookupKey m k2 = some (KeyAction.single a))
    (hBad : lookupKey m kBad = none)
    (hT2 : lookupKey T k2 = none) :
    dispatchKey ⟨T, none⟩ k1 = some (⟨T, some (KeyAction.nested m)⟩, none) ∧
    dispatchKey ⟨T, some (KeyAction.nested m)⟩ k2 =
      some (⟨T, none⟩, some (KeyAction.single a)) ∧
    dispatchKey ⟨T, some (KeyAction.nested m)⟩ kBad = some (⟨T, none⟩, none) ∧
    (∀ k, handleEvent ⟨T, none⟩ k = some (⟨T, none⟩, lookupKey T k)) ∧
    dispatchKey ⟨T, none⟩ k2 = some (⟨T, none⟩, none) := by
  refine ⟨?_, ?_, ?_, ?_, ?_⟩
  · simp [dispatchKey, handleEvent, h1]
  · simp [dispatchKey, handleEvent, handleWaitingCommand, h2]
  · simp [dispatchKey, handleEvent, handleWaitingCommand, hBad]
  · intro k
    simp [handleEvent]
  · simp [dispatchKey, handleEvent, hT2]

/-- Witness for `nested_key_routing` on a two-key `"d x"` delete-line
binding. -/
theorem nested_key_routing_witness :
    dispatchKey ⟨[("d", KeyAction.nested [("x", KeyAction.single Action.deleteCurrentLine)])], none⟩ "d" =
      some (⟨[("d", KeyAction.nested [("x", KeyAction.single Action.deleteCurrentLine)])],
        some (KeyAction.nested [("x", KeyAction.single Action.deleteCurrentLine)])⟩, none) ∧
    dispatchKey ⟨[("d", KeyAction.nested [("x", KeyAction.single Action.deleteCurrentLine)])],
        some (KeyAction.nested [("x", KeyAction.single Action.deleteCurrentLine)])⟩ "x" =
      some (⟨[("d", KeyAction.nested [("x", KeyAction.single Action.deleteCurrentLine)])], none⟩,
        some (KeyAction.single Action.deleteCurrentLine)) := by
  have h := nested_key_routing
    [("d", KeyAction.nested [("x", KeyAction.single Action.deleteCurrentLine)])]
    [("x", KeyAction.single Action.deleteCurrentLine)]
    "d" "x" "q" Action.deleteCurrentLine rfl rfl rfl rfl
  exact ⟨h.1, h.2.1⟩

/-! ## C3 — inverse-action round trips -/

/-- C3 counterexample: the claim quantifies over every buffer state and cursor
position, but with cursor column 5 on the one-character line `"a"` the
`InsertCharAtCursorPos('x')` arm panics (`String::insert` index assertion), so
no state exists whose recorded inverse could restore the line. -/
theorem insert_roundtrip_panics_past_line_end :
    execute 1 (Action.insertCharAtCursorPos 'x')
      { initialState ⟨none, [['a']]⟩ (80, 6) with cx := 5 } = none := by
  exact rfl

/-- C3 amended: provided the cursor column does not exceed the current line's
length (or the line index is out of range, making both steps no-ops),
`InsertCharAtCursorPos(c)` followed by the inverse it recorded
(`RemoveCharAt` at the insertion coordinates) restores the buffer's lines to
their pre-insert state; `DeleteCurrentLine` followed by its recorded inverse
(`InsertLineAt(line, contents)`) unconditionally restores the exact original
line at the exact original index. -/
theorem undo_roundtrip_restores (f : Nat) :
    (∀ (s : EditorState) (c : Char),
      s.buffer.len ≤ s.buffer_line ∨
        (∃ line, s.buffer.lines.get? s.buffer_line = some line ∧ s.cx ≤ line.length) →
      ∃ t u,
        execute (f + 1) (Action.insertCharAtCursorPos c) s = some t ∧
        t.insert_undo_actions =
          s.insert_undo_actions ++ [Action.removeCharAt s.cx s.buffer_line] ∧
        execute (f + 1) (Action.removeCharAt s.cx s.buffer_line) t = some u ∧
        u.buffer.lines = s.buffer.lines) ∧
    (∀ s : EditorState,
      ∃ t u,
        execute (f + 1) Action.deleteCurrentLine s = some t ∧
        t.undo_actions =
          s.undo_actions ++ [Action.insertLineAt s.buffer_line s.current_line_contents] ∧
        execute (f + 1) (Action.insertLineAt s.buffer_line s.current_line_contents) t = some u ∧
        u.buffer.lines = s.buffer.lines) := by
  constructor
  · -- insert / remove-char round trip
    intro s c hok
    rcases hok with hout | ⟨line, hline, hcx⟩
    · have hnone : s.buffer.lines.get? s.buffer_line = none := by
        exact List.get?_eq_none.mpr hout
      have hb : s.buffer.insert s.cx s.buffer_line c = some s.buffer := by
        simp only [Buffer.insert, hnone]
      have hexec1 : execute (f + 1) (Action.insertCharAtCursorPos c) s =
          some { s with
            insert_undo_actions :=
              s.insert_undo_actions ++ [Action.removeCharAt s.cx s.buffer_line],
            cx := s.cx + 1 } := by
        simp only [EditorState.buffer_line] at hb
        simp [execute, execBody, EditorState.buffer_line, hb]
      have hb2 : s.buffer.remove s.cx s.buffer_line = some s.buffer := by
        simp only [Buffer.remove, hnone]
      have hexec2 : execute (f + 1) (Action.removeCharAt s.cx s.buffer_line)
          { s with
            insert_undo_actions :=
              s.insert_undo_actions ++ [Action.removeCharAt s.cx s.buffer_line],
            cx := s.cx + 1 } =
          some { s with
            insert_undo_actions :=
              s.insert_undo_actions ++ [Action.removeCharAt s.cx s.buffer_line],
            cx := s.cx + 1 } := by
        simp [execute, execBody, hb2]
      exact ⟨_, _, hexec1, rfl, hexec2, rfl⟩
    · have hy : s.buffer_line < s.buffer.lines.length := by
        rcases List.get?_eq_some.mp hline with ⟨h, _⟩
        exact h
      have hb : s.buffer.insert s.cx s.buffer_line c =
          some { s.buffer with
            lines := s.buffer.lines.set s.buffer_line (line.insertIdx s.cx c) } := by
        simp only [Buffer.insert, hline]
        rw [if_pos hcx]
      have hexec1 : execute (f + 1) (Action.insertCharAtCursorPos c) s =
          some { s with
            insert_undo_actions :=
              s.insert_undo_actions ++ [Action.removeCharAt s.cx s.buffer_line],
            buffer := { s.buffer with
              lines := s.buffer.lines.set s.buffer_line (line.insertIdx s.cx c) },
            cx := s.cx + 1 } := by
        simp only [EditorState.buffer_line] at hb
        simp [execute, execBody, EditorState.buffer_line, hb]
      have hget2 : (s.buffer.lines.set s.buffer_line (line.insertIdx s.cx c)).get?
          s.buffer_line = some (line.insertIdx s.cx c) := by
        exact List.get?_set_eq_of_lt _ hy
      have hcx2 : s.cx < (line.insertIdx s.cx c).length := by
        rw [List.length_insertIdx s.cx line hcx]
        omega
      have hb2 : Buffer.remove
          { s.buffer with lines := s.buffer.lines.set s.buffer_line (line.insertIdx s.cx c) }
          s.cx s.buffer_line =
          some { s.buffer with lines := s.buffer.lines } := by
        simp only [Buffer.remove, hget2]
        rw [if_pos hcx2]
        rw [List.set_set, List.eraseIdx_insertIdx, set_get?_self hline]
      have hexec2 : execute (f + 1) (Action.removeCharAt s.cx s.buffer_line)
          { s with
            insert_undo_actions :=
              s.insert_undo_actions ++ [Action.removeCharAt s.cx s.buffer_line],
            buffer := { s.buffer with
              lines := s.buffer.lines.set s.buffer_line (line.insertIdx s.cx c) },
            cx := s.cx + 1 } =
          some { s with
            insert_undo_actions :=
              s.insert_undo_actions ++ [Action.removeCharAt s.cx s.buffer_line],
            buffer := { s.buffer with lines := s.buffer.lines },
            cx := s.cx + 1 } := by
        simp [execute, execBody, hb2]
      exact ⟨_, _, hexec1, rfl, hexec2, rfl⟩
  · -- delete-line / insert-line round trip
    intro s
    rcases Nat.lt_or_ge s.buffer_line s.buffer.len with hy | hout
    · rcases hgl : s.buffer.lines.get? s.buffer_line with _ | line
      · rw [List.get?_eq_none] at hgl
        exact absurd hy (not_lt.mpr hgl)
      have hcont : s.current_line_contents = some line := hgl
      have hrem : s.buffer.remove_line s.buffer_line =
          { s.buffer with lines := s.buffer.lines.eraseIdx s.buffer_line } := by
        simp only [Buffer.remove_line]
        rw [if_pos hy]
      have hexec1 : execute (f + 1) Action.deleteCurrentLine s =
          some { s with
            buffer := { s.buffer with lines := s.buffer.lines.eraseIdx s.buffer_line },
            undo_actions :=
              s.undo_actions ++
                [Action.insertLineAt s.buffer_line s.current_line_contents] } := by
        simp [execute, execBody, hrem]
      have hlen2 : s.buffer_line ≤ (s.buffer.lines.eraseIdx s.buffer_line).length := by
        rw [List.length_eraseIdx_of_lt hy]
        simp only [Buffer.len] at hy
        omega
      have hb2 : Buffer.insert_line
          { s.buffer with lines := s.buffer.lines.eraseIdx s.buffer_line }
          s.buffer_line line =
          some { s.buffer with lines := s.buffer.lines } := by
        simp only [Buffer.insert_line]
        rw [if_pos hlen2, insertIdx_eraseIdx_self hgl]
      have hexec2 : execute (f + 1) (Action.insertLineAt s.buffer_line (some line))
          { s with
            buffer := { s.buffer with lines := s.buffer.lines.eraseIdx s.buffer_line },
            undo_actions :=
              s.undo_actions ++
                [Action.insertLineAt s.buffer_line s.current_line_contents] } =
          some { s with
            buffer := { s.buffer with lines := s.buffer.lines },
            undo_actions :=
              s.undo_actions ++
                [Action.insertLineAt s.buffer_line s.current_line_contents] } := by
        simp [execute, execBody, hb2]
      rw [hcont]
      exact ⟨_, _, hexec1, by rw [hcont], hexec2, rfl⟩
    · have hcont : s.current_line_contents = none := List.get?_eq_none.mpr hout
      have hrem : s.buffer.remove_line s.buffer_line = s.buffer := by
        simp only [Buffer.remove_line]
        rw [if_neg (not_lt.mpr hout)]
      have hexec1 : execute (f + 1) Action.deleteCurrentLine s =
          some { s with
            undo_actions :=
              s.undo_actions ++
                [Action.insertLineAt s.buffer_line s.current_line_contents] } := by
        simp [execute, execBody, hrem]
      have hexec2 : execute (f + 1) (Action.insertLineAt s.buffer_line none)
          { s with
            undo_actions :=
              s.undo_actions ++
                [Action.insertLineAt s.buffer_line s.current_line_contents] } =
          some { s with
            undo_actions :=
              s.undo_actions ++
                [Action.insertLineAt s.buffer_line s.current_line_contents] } := by
        simp [execute, execBody]
      rw [hcont]
      exact ⟨_, _, hexec1, by rw [hcont], hexec2, rfl⟩

/-- Witness for `undo_roundtrip_restores` on a fresh editor over `["ab"]`. -/
theorem undo_roundtrip_restores_witness :
    (∃ t u,
      execute 1 (Action.insertCharAtCursorPos 'z')
        (initialState ⟨none, [['a', 'b']]⟩ (80, 6)) = some t ∧
      t.insert_undo_actions = [] ++ [Action.removeCharAt 0 0] ∧
      execute 1 (Action.removeCharAt 0 0) t = some u ∧
      u.buffer.lines = [['a', 'b']]) ∧
    (∃ t u,
      execute 1 Action.deleteCurrentLine
        (initialState ⟨none, [['a', 'b']]⟩ (80, 6)) = some t ∧
      t.undo_actions = [] ++ [Action.insertLineAt 0 (some ['a', 'b'])] ∧
      execute 1 (Action.insertLineAt 0 (some ['a', 'b'])) t = some u ∧
      u.buffer.lines = [['a', 'b']]) := by
  exact ⟨(undo_roundtrip_restores 0).1 (initialState ⟨none, [['a', 'b']]⟩ (80, 6)) 'z'
    (Or.inr ⟨['a', 'b'], rfl, by decide⟩),
    (undo_roundtrip_restores 0).2 (initialState ⟨none, [['a', 'b']]⟩ (80, 6))⟩

/-! ## C6 — render-grid diffing -/

/-- Row-major position decoding inverts the encoding used in `diff`
(`x = pos % w`, `y = pos / w`, recovered as `y * w + x`). -/
theorem pos_roundtrip (w p : Nat) : p / w * w + p % w = p := by
  rw [Nat.mul_comm, Nat.div_add_mod]

/-- Membership characterisation of the `diff` loop: a change is emitted exactly
for the positions where `self`'s cell differs from `other`'s. -/
theorem mem_diffGo {w : Nat} {other : List Cell} (rest : List Cell) :
    ∀ (pos : Nat) (ch : Change),
      ch ∈ diffGo w other pos rest ↔
        ∃ i c, rest.get? i = some c ∧ other.get? (pos + i) ≠ some c ∧
          ch = { x := (pos + i) % w, y := (pos + i) / w, cell := c } := by
  induction rest with
  | nil =>
    intro pos ch
    simp [diffGo]
  | cons c rest ih =>
    intro pos ch
    rw [diffGo]
    by_cases h : other.get? pos = some c
    · rw [if_pos h, ih (pos + 1)]
      constructor
      · rintro ⟨i, cc, h1, h2, h3⟩
        have e : pos + (i + 1) = pos + 1 + i := by omega
        refine ⟨i + 1, cc, by simpa using h1, ?_, ?_⟩
        · rw [e]; exact h2
        · rw [e]; exact h3
      · rintro ⟨i, cc, h1, h2, h3⟩
        cases i with
        | zero =>
          simp only [List.get?_cons_zero, Option.some.injEq] at h1
          subst h1
          simp only [Nat.add_zero] at h2
          exact absurd h h2
        | succ i =>
          have e : pos + 1 + i = pos + (i + 1) := by omega
          refine ⟨i, cc, by simpa using h1, ?_, ?_⟩
          · rw [e]; exact h2
          · rw [e]; exact h3
    · rw [if_neg h, List.mem_cons, ih (pos + 1)]
      constructor
      · rintro (rfl | ⟨i, cc, h1, h2, h3⟩)
        · exact ⟨0, c, rfl, by simpa using h, by simp⟩
        · have e : pos + (i + 1) = pos + 1 + i := by omega
          refine ⟨i + 1, cc, by simpa using h1, ?_, ?_⟩
          · rw [e]; exact h2
          · rw [e]; exact h3
      · rintro ⟨i, cc, h1, h2, h3⟩
        cases i with
        | zero =>
          simp only [List.get?_cons_zero, Option.some.injEq] at h1
          subst h1
          left
          simpa using h3
        | succ i =>
          have e : pos + 1 + i = pos + (i + 1) := by omega
          refine Or.inr ⟨i, cc, by simpa using h1, ?_, ?_⟩
          · rw [e]; exact h2
          · rw [e]; exact h3

/-- Every change emitted from position `pos` onwards encodes a position at least
`pos`. -/
theorem diffGo_pos_le {w : Nat} {other : List Cell} (rest : List Cell)
    (pos : Nat) (ch : Change) (h : ch ∈ diffGo w other pos rest) :
    pos ≤ Change.pos w ch := by
  rcases (mem_diffGo rest pos ch).mp h with ⟨i, c, _, _, rfl⟩
  simp only [Change.pos, pos_roundtrip]
  omega

/-- The `diff` loop emits changes with strictly increasing row-major
positions. -/
theorem diffGo_sorted {w : Nat} {other : List Cell} (rest : List Cell) :
    ∀ pos : Nat, List.Sorted (· < ·) ((diffGo w other pos rest).map (Change.pos w)) := by
  induction rest with
  | nil =>
    intro pos
    simp [diffGo]
  | cons c rest ih =>
    intro pos
    rw [diffGo]
    split
    · exact ih (pos + 1)
    · rw [List.map_cons]
      refine List.sorted_cons.mpr ⟨?_, ih (pos + 1)⟩
      intro q hq
      rcases List.mem_map.mp hq with ⟨ch, hch, rfl⟩
      have hle := diffGo_pos_le rest (pos + 1) ch hch
      simp only [Change.pos] at hle
      simp only [Change.pos, pos_roundtrip]
      omega

/-- A strictly sorted list whose members are exactly one value is that singleton. -/
theorem singleton_of_mem_iff {l : List Change} {w : Nat} {x : Change}
    (hs : List.Sorted (· < ·) (l.map (Change.pos w)))
    (hm : ∀ ch, ch ∈ l ↔ ch = x) : l = [x] := by
  cases l with
  | nil =>
    exact absurd ((hm x).mpr rfl) (List.not_mem_nil x)
  | cons a l =>
    have ha : a = x := (hm a).mp (List.mem_cons_self a l)
    subst ha
    have hl : l = [] := by
      rw [List.eq_nil_iff_forall_not_mem]
      intro ch hch
      have : ch = a := (hm ch).mp (List.mem_cons_of_mem a hch)
      subst this
      have := (List.sorted_cons.mp (by simpa using hs)).1 (Change.pos w ch)
        (List.mem_map_of_mem (Change.pos w) hch)
      omega
    rw [hl]

/-- C6: diffing a `RenderBuffer` against itself yields zero changes; on
equal-dimension grids differing in exactly one cell, exactly one `Change` is
produced, carrying that cell's row-major coordinates and `self`'s (new) cell;
in general a cell is reported iff its character or its full style differs; and
the emitted changes are in row-major order (strictly increasing positions). -/
theorem diff_spec :
    (∀ rb : RenderBuffer, rb.diff rb = some []) ∧
    (∀ a b : RenderBuffer, a.cells.length = b.cells.length →
      ∀ p cp, a.cells.get? p = some cp →
        (∀ q, q < a.cells.length → q ≠ p → a.cells.get? q = b.cells.get? q) →
        a.cells.get? p ≠ b.cells.get? p →
        a.diff b = some [{ x := p % a.width, y := p / a.width, cell := cp }]) ∧
    (∀ a b : RenderBuffer, a.cells.length = b.cells.length →
      ∀ l, a.diff b = some l →
        ∀ p cp cq, a.cells.get? p = some cp → b.cells.get? p = some cq →
          ({ x := p % a.width, y := p / a.width, cell := cp } ∈ l ↔
            (cp.c ≠ cq.c ∨ cp.style ≠ cq.style))) ∧
    (∀ a b : RenderBuffer, ∀ l, a.diff b = some l →
      List.Sorted (· < ·) (l.map (Change.pos a.width))) := by
  refine ⟨?_, ?_, ?_, ?_⟩
  · intro rb
    rw [RenderBuffer.diff, if_neg (lt_irrefl _)]
    congr 1
    rw [List.eq_nil_iff_forall_not_mem]
    intro ch hch
    rcases (mem_diffGo rb.cells 0 ch).mp hch with ⟨i, c, h1, h2, _⟩
    simp only [Nat.zero_add] at h2
    exact h2 h1
  · intro a b hl p cp hp hq hdiff
    rw [RenderBuffer.diff, if_neg (by omega)]
    congr 1
    refine singleton_of_mem_iff (w := a.width) (diffGo_sorted a.cells 0) ?_
    intro ch
    rw [mem_diffGo a.cells 0 ch]
    constructor
    · rintro ⟨i, c, h1, h2, rfl⟩
      simp only [Nat.zero_add] at h2 ⊢
      by_cases hip : i = p
      · subst hip
        rw [hp] at h1
        cases h1
        rfl
      · have hilt : i < a.cells.length := by
          rcases List.get?_eq_some.mp h1 with ⟨hlt, _⟩
          exact hlt
        exact absurd (hq i hilt hip ▸ h1) h2
    · rintro rfl
      refine ⟨p, cp, by simpa using hp, ?_, by simp⟩
      simp only [Nat.zero_add]
      rw [← hp]
      exact fun hc => hdiff hc.symm
  · intro a b hl l hdl p cp cq hp hq
    rw [RenderBuffer.diff, if_neg (by omega)] at hdl
    cases hdl
    rw [mem_diffGo a.cells 0 _]
    constructor
    · rintro ⟨i, c, h1, h2, heq⟩
      simp only [Nat.zero_add] at h1 h2 heq
      simp only [Change.mk.injEq] at heq
      obtain ⟨hx, hy, hc⟩ := heq
      have hip : p = i := by
        have e1 := (pos_roundtrip a.width p).symm
        rw [hx, hy] at e1
        rw [e1, pos_roundtrip]
      subst hip
      subst hc
      rw [hq] at h2
      have hne : cp ≠ cq := fun he => h2 (by rw [he])
      rcases cp with ⟨cpc, cps⟩
      rcases cq with ⟨cqc, cqs⟩
      by_cases hch : cpc = cqc
      · subst hch
        refine Or.inr fun hs => hne ?_
        simp only at hs
        rw [hs]
      · exact Or.inl hch
    · intro hne
      refine ⟨p, cp, ?_, ?_, ?_⟩
      · simpa using hp
      · simp only [Nat.zero_add]
        rw [hq]
        intro he
        injection he with he
        subst he
        rcases hne with h | h
        · exact h rfl
        · exact h rfl
      · simp
  · intro a b l hdl
    rw [RenderBuffer.diff] at hdl
    by_cases hlen : b.cells.length < a.cells.length
    · rw [if_pos hlen] at hdl
      cases hdl
    · rw [if_neg hlen] at hdl
      cases hdl
      exact diffGo_sorted a.cells 0

/-- Witness for `diff_spec` on concrete 2×2 grids differing in one cell. -/
theorem diff_spec_witness :
    RenderBuffer.diff
        ⟨[⟨'a', ⟨none, none, false, false⟩⟩, ⟨'b', ⟨none, none, false, false⟩⟩,
          ⟨'z', ⟨none, none, false, false⟩⟩, ⟨'d', ⟨none, none, false, false⟩⟩], 2, 2⟩
        ⟨[⟨'a', ⟨none, none, false, false⟩⟩, ⟨'b', ⟨none, none, false, false⟩⟩,
          ⟨'c', ⟨none, none, false, false⟩⟩, ⟨'d', ⟨none, none, false, false⟩⟩], 2, 2⟩ =
      some [{ x := 2 % 2, y := 2 / 2, cell := ⟨'z', ⟨none, none, false, false⟩⟩ }] := by
  exact diff_spec.2.1
    ⟨[⟨'a', ⟨none, none, false, false⟩⟩, ⟨'b', ⟨none, none, false, false⟩⟩,
      ⟨'z', ⟨none, none, false, false⟩⟩, ⟨'d', ⟨none, none, false, false⟩⟩], 2, 2⟩
    ⟨[⟨'a', ⟨none, none, false, false⟩⟩, ⟨'b', ⟨none, none, false, false⟩⟩,
      ⟨'c', ⟨none, none, false, false⟩⟩, ⟨'d', ⟨none, none, false, false⟩⟩], 2, 2⟩
    rfl 2 ⟨'z', ⟨none, none, false, false⟩⟩ rfl (by decide) (by decide)

/-! ## C4 — insert-session undo bundling -/

/-- One-step unfolding of the fuelled executor. -/
theorem execute_succ (f : Nat) (a : Action) (s : EditorState) :
    execute (f + 1) a s = execBody (execute f) a s := rfl

/-- `execList` distributes over list append. -/
theorem execList_append (g : Action → EditorState → Option EditorState)
    (l1 l2 : List Action) :
    ∀ s, execList g (l1 ++ l2) s = (execList g l1 s).bind (execList g l2) := by
  induction l1 with
  | nil =>
    intro s
    simp [execList]
  | cons a l ih =>
    intro s
    rw [List.cons_append]
    simp only [execList]
    cases g a s with
    | none => simp
    | some t => simpa using ih t

/-- `insertIdx` as a take/cons/drop splice (for an in-range index). -/
theorem insertIdx_splice {α : Type} (x : α) : ∀ (l : List α) (n : Nat),
    n ≤ l.length → l.insertIdx n x = l.take n ++ x :: l.drop n := by
  intro l
  induction l with
  | nil =>
    intro n h
    simp at h
    subst h
    rfl
  | cons a l ih =>
    intro n h
    cases n with
    | zero => rfl
    | succ n => simp [List.insertIdx_succ_cons, ih n (by simpa using h)]

/-- Erasing exactly at the junction of an append removes the junction head. -/
theorem eraseIdx_at_append {α : Type} (d : α) (B : List α) :
    ∀ A : List α, (A ++ d :: B).eraseIdx A.length = A ++ B := by
  intro A
  induction A with
  | nil => rfl
  | cons a A ih => simp [List.eraseIdx, ih]

/-- Executing a run of `InsertCharAtCursorPos` actions: characters are spliced
into the current line at the running cursor column, the cursor advances by the
number of characters, and one `RemoveCharAt` inverse per character is appended
to the insert-session group (at the successive insertion columns). -/
theorem insert_run (f : Nat) (cs : List Char) :
    ∀ (s : EditorState) (line : Line),
      s.buffer.lines.get? s.buffer_line = some line →
      s.cx ≤ line.length →
      execList (execute (f + 1)) (cs.map Action.insertCharAtCursorPos) s =
        some { s with
          buffer := { s.buffer with
            lines := s.buffer.lines.set s.buffer_line
              (line.take s.cx ++ cs ++ line.drop s.cx) },
          cx := s.cx + cs.length,
          insert_undo_actions := s.insert_undo_actions ++
            (List.range cs.length).map
              (fun i => Action.removeCharAt (s.cx + i) s.buffer_line) } := by
  induction cs with
  | nil =>
    intro s line hline hcx
    simp only [List.map_nil, execList, List.length_nil, List.range_zero,
      List.append_nil, List.take_append_drop, Nat.add_zero]
    rw [set_get?_self hline]
  | cons c cs ih =>
    intro s line hline hcx
    have hy : s.buffer_line < s.buffer.lines.length := by
      rcases List.get?_eq_some.mp hline with ⟨h, _⟩
      exact h
    have hb : s.buffer.insert s.cx s.buffer_line c =
        some { s.buffer with
          lines := s.buffer.lines.set s.buffer_line (line.insertIdx s.cx c) } := by
      simp only [Buffer.insert, hline]
      rw [if_pos hcx]
    have hstep : execute (f + 1) (Action.insertCharAtCursorPos c) s =
        some { s with
          insert_undo_actions :=
            s.insert_undo_actions ++ [Action.removeCharAt s.cx s.buffer_line],
          buffer := { s.buffer with
            lines := s.buffer.lines.set s.buffer_line (line.insertIdx s.cx c) },
          cx := s.cx + 1 } := by
      simp only [EditorState.buffer_line] at hb
      simp [execute, execBody, EditorState.buffer_line, hb]
    simp only [List.map_cons, execList, hstep]
    have hline2 : (s.buffer.lines.set s.buffer_line (line.insertIdx s.cx c)).get?
        s.buffer_line = some (line.insertIdx s.cx c) :=
      List.get?_set_eq_of_lt _ hy
    have hcx2 : s.cx + 1 ≤ (line.insertIdx s.cx c).length := by
      rw [List.length_insertIdx s.cx line hcx]
      omega
    rw [ih _ (line.insertIdx s.cx c) hline2 hcx2]
    simp only [EditorState.buffer_line, Option.some.injEq, EditorState.mk.injEq,
      Buffer.mk.injEq, List.set_set, and_true, true_and]
    refine ⟨?_, ?_, ?_⟩
    · -- the spliced line
      congr 1
      rw [insertIdx_splice c line s.cx hcx]
      have hsplit : line.take s.cx ++ c :: line.drop s.cx =
          (line.take s.cx ++ [c]) ++ line.drop s.cx := by
        simp
      have hlen : (line.take s.cx ++ [c]).length = s.cx + 1 := by
        simp [List.length_take]
        omega
      rw [hsplit, List.take_left' hlen, List.drop_left' hlen]
      simp
    · -- the cursor column
      simp only [List.length_cons]
      omega
    · -- the recorded inverses
      simp only [List.length_cons]
      rw [List.append_assoc]
      congr 1
      rw [List.range_succ_eq_map, List.map_cons, List.map_map]
      simp [Function.comp]
      intro i hi
      omega

/-- Executing the bundle of `RemoveCharAt` inverses in reverse order peels the
spliced characters back off the line, restoring it exactly. -/
theorem remove_run (f : Nat) (cs : List Char) :
    ∀ (s : EditorState) (lines0 : List Line) (line : Line) (x y : Nat),
      x ≤ line.length →
      lines0.get? y = some line →
      s.buffer.lines = lines0.set y (line.take x ++ cs ++ line.drop x) →
      execute (f + 2)
        (Action.undoMultiple
          ((List.range cs.length).map (fun i => Action.removeCharAt (x + i) y))) s =
        some { s with buffer := { s.buffer with lines := lines0.set y line } } := by
  induction cs using List.reverseRecOn with
  | nil =>
    intro s lines0 line x y hx hget hlines
    rw [execute_succ]
    simp only [List.range_zero, List.map_nil, execBody, List.reverse_nil, execList]
    rw [List.append_nil, List.take_append_drop] at hlines
    rw [← hlines]
  | append_singleton cs d ih =>
    intro s lines0 line x y hx hget hlines
    have hy : y < lines0.length := by
      rcases List.get?_eq_some.mp hget with ⟨h, _⟩
      exact h
    have hxlen : (line.take x ++ cs).length = x + cs.length := by
      simp [List.length_take]
      omega
    have hsplit : line.take x ++ (cs ++ [d]) ++ line.drop x =
        (line.take x ++ cs) ++ d :: line.drop x := by
      simp
    have hget2 : s.buffer.lines.get? y =
        some (line.take x ++ (cs ++ [d]) ++ line.drop x) := by
      rw [hlines]
      exact List.get?_set_eq_of_lt _ (by simpa using hy)
    have hdlt : x + cs.length <
        (line.take x ++ (cs ++ [d]) ++ line.drop x).length := by
      simp [List.length_take]
      omega
    have herase : (line.take x ++ (cs ++ [d]) ++ line.drop x).eraseIdx (x + cs.length) =
        line.take x ++ cs ++ line.drop x := by
      rw [hsplit, ← hxlen, eraseIdx_at_append]
    have hrm : s.buffer.remove (x + cs.length) y =
        some { s.buffer with
          lines := lines0.set y (line.take x ++ cs ++ line.drop x) } := by
      simp only [Buffer.remove, hget2]
      rw [if_pos hdlt]
      rw [hlines, List.set_set, herase]
    have hstep : execute (f + 1) (Action.removeCharAt (x + cs.length) y) s =
        some { s with buffer := { s.buffer with
          lines := lines0.set y (line.take x ++ cs ++ line.drop x) } } := by
      simp [execute, execBody, hrm]
    have hlen2 : (cs ++ [d]).length = cs.length + 1 := by simp
    rw [execute_succ]
    simp only [execBody]
    rw [hlen2, List.range_succ, List.map_append, List.map_cons, List.map_nil,
      List.reverse_append]
    simp only [List.reverse_cons, List.reverse_nil, List.nil_append,
      List.cons_append, execList, hstep]
    have hrest := ih { s with buffer := { s.buffer with
        lines := lines0.set y (line.take x ++ cs ++ line.drop x) } }
      lines0 line x y hx hget rfl
    rw [execute_succ] at hrest
    simp only [execBody] at hrest
    exact hrest

/-- C4: starting from Normal mode, entering Insert mode, performing `N ≥ 1`
character insertions and returning to Normal mode pushes exactly one
`UndoMultiple` bundle (the non-empty insert-session group) onto the global
`UndoLog`; a single `Undo` then executes the bundle's `RemoveCharAt` inverses in
reverse order, reverting all `N` insertions in one step: the buffer lines and
the `UndoLog` are both restored. -/
theorem insert_session_single_undo (f : Nat) (s : EditorState) (cs : List Char)
    (hne : cs ≠ []) (hmode : s.mode = Mode.normal) (line : Line)
    (hline : s.buffer.lines.get? s.buffer_line = some line)
    (hcx : s.cx ≤ line.length) :
    ∃ t u,
      execList (execute (f + 1))
        (Action.enterMode Mode.insert ::
          (cs.map Action.insertCharAtCursorPos ++ [Action.enterMode Mode.normal])) s =
        some t ∧
      t.undo_actions = s.undo_actions ++
        [Action.undoMultiple ((List.range cs.length).map
          (fun i => Action.removeCharAt (s.cx + i) s.buffer_line))] ∧
      t.mode = Mode.normal ∧
      execute (f + 3) Action.undo t = some u ∧
      u.buffer.lines = s.buffer.lines ∧
      u.undo_actions = s.undo_actions ∧
      u.mode = Mode.normal := by
  have h1 : execute (f + 1) (Action.enterMode Mode.insert) s =
      some { s with insert_undo_actions := [], mode := Mode.insert } := by
    simp [execute, execBody, EditorState.is_insert, hmode]
  have h2 := insert_run f cs
    { s with insert_undo_actions := [], mode := Mode.insert } line hline hcx
  have hinvne : ((List.range cs.length).map
      (fun i => Action.removeCharAt (s.cx + i) s.buffer_line)).isEmpty = false := by
    obtain ⟨c0, cs', rfl⟩ := List.exists_cons_of_ne_nil hne
    simp [List.range_succ_eq_map]
  have h3 : execute (f + 1) (Action.enterMode Mode.normal)
      { s with
        buffer := { s.buffer with
          lines := s.buffer.lines.set s.buffer_line
            (line.take s.cx ++ cs ++ line.drop s.cx) },
        cx := s.cx + cs.length,
        insert_undo_actions := [] ++ (List.range cs.length).map
          (fun i => Action.removeCharAt (s.cx + i) s.buffer_line),
        mode := Mode.insert } =
      some { s with
        buffer := { s.buffer with
          lines := s.buffer.lines.set s.buffer_line
            (line.take s.cx ++ cs ++ line.drop s.cx) },
        cx := s.cx + cs.length,
        insert_undo_actions := [],
        mode := Mode.normal,
        undo_actions := s.undo_actions ++
          [Action.undoMultiple ((List.range cs.length).map
            (fun i => Action.removeCharAt (s.cx + i) s.buffer_line))] } := by
    simp [execute, execBody, EditorState.is_insert, hinvne]
  have hseq : execList (execute (f + 1))
      (Action.enterMode Mode.insert ::
        (cs.map Action.insertCharAtCursorPos ++ [Action.enterMode Mode.normal])) s =
      some { s with
        buffer := { s.buffer with
          lines := s.buffer.lines.set s.buffer_line
            (line.take s.cx ++ cs ++ line.drop s.cx) },
        cx := s.cx + cs.length,
        insert_undo_actions := [],
        mode := Mode.normal,
        undo_actions := s.undo_actions ++
          [Action.undoMultiple ((List.range cs.length).map
            (fun i => Action.removeCharAt (s.cx + i) s.buffer_line))] } := by
    simp only [execList, h1]
    rw [execList_append, h2]
    have hlast : execList (execute (f + 1)) [Action.enterMode Mode.normal]
        { s with
          mode := Mode.insert,
          buffer := { s.buffer with
            lines := s.buffer.lines.set s.buffer_line
              (line.take s.cx ++ cs ++ line.drop s.cx) },
          cx := s.cx + cs.length,
          insert_undo_actions := [] ++ (List.range cs.length).map
            (fun i => Action.removeCharAt (s.cx + i) s.buffer_line) } =
        some { s with
          buffer := { s.buffer with
            lines := s.buffer.lines.set s.buffer_line
              (line.take s.cx ++ cs ++ line.drop s.cx) },
          cx := s.cx + cs.length,
          insert_undo_actions := [],
          mode := Mode.normal,
          undo_actions := s.undo_actions ++
            [Action.undoMultiple ((List.range cs.length).map
              (fun i => Action.removeCharAt (s.cx + i) s.buffer_line))] } := by
      simp only [execList, h3]
    exact hlast
  have hundo : execute (f + 3) Action.undo
      { s with
        buffer := { s.buffer with
          lines := s.buffer.lines.set s.buffer_line
            (line.take s.cx ++ cs ++ line.drop s.cx) },
        cx := s.cx + cs.length,
        insert_undo_actions := [],
        mode := Mode.normal,
        undo_actions := s.undo_actions ++
          [Action.undoMultiple ((List.range cs.length).map
            (fun i => Action.removeCharAt (s.cx + i) s.buffer_line))] } =
      some { s with
        buffer := { s.buffer with lines := s.buffer.lines },
        cx := s.cx + cs.length,
        insert_undo_actions := [],
        mode := Mode.normal,
        undo_actions := s.undo_actions } := by
    rw [execute_succ]
    simp only [execBody, List.getLast?_concat, List.dropLast_concat]
    have hrun := remove_run f cs
      { s with
        buffer := { s.buffer with
          lines := s.buffer.lines.set s.buffer_line
            (line.take s.cx ++ cs ++ line.drop s.cx) },
        cx := s.cx + cs.length,
        insert_undo_actions := [],
        mode := Mode.normal,
        undo_actions := s.undo_actions }
      s.buffer.lines line s.cx s.buffer_line hcx hline rfl
    rw [set_get?_self hline] at hrun
    exact hrun
  exact ⟨_, _, hseq, rfl, rfl, hundo, rfl, rfl, rfl⟩

/-- Witness for `insert_session_single_undo`: two insertions on a fresh editor
over `["ab"]`, undone by a single `Undo`. -/
theorem insert_session_single_undo_witness :
    ∃ t u,
      execList (execute 1)
        (Action.enterMode Mode.insert ::
          ((['x', 'y'].map Action.insertCharAtCursorPos) ++
            [Action.enterMode Mode.normal]))
        (initialState ⟨none, [['a', 'b']]⟩ (80, 6)) = some t ∧
      t.undo_actions = [] ++
        [Action.undoMultiple ((List.range 2).map
          (fun i => Action.removeCharAt (0 + i) 0))] ∧
      t.mode = Mode.normal ∧
      execute 3 Action.undo t = some u ∧
      u.buffer.lines = [['a', 'b']] ∧
      u.undo_actions = [] ∧
      u.mode = Mode.normal := by
  exact insert_session_single_undo 0 (initialState ⟨none, [['a', 'b']]⟩ (80, 6))
    ['x', 'y'] (by decide) rfl ['a', 'b'] rfl (by decide)

/-! ## C1 — the bounds invariant -/

end Rustik
